import Mathlib

/-!
Verification of the git-rs content-addressable object store.

This file shallowly embeds the core of the repository (src/object_read.rs,
src/object_write.rs, src/cat_file.rs, src/hash_object.rs, src/ls_tree.rs,
src/write_tree.rs, src/commit.rs) into Lean.  Byte sequences are `List Nat`
(each element a byte value < 256), machine integers are `Nat`/`Int` with
explicit truncation where overflow matters, and fallible operations return
`Except`/`Option`.  The zlib compressor/decompressor pair used by the code is
an external library forming an inverse pair, so the store is modelled at the
level of the uncompressed byte stream a reader observes after decompression.
-/

deriving instance DecidableEq for Except

/-! ## Bit-level helpers and SHA-1 (the `sha1` crate dependency, RFC 3174) -/

/-- 32-bit left rotation on a word `x < 2^32`. -/
def rotl (n x : Nat) : Nat := ((x <<< n) ||| (x >>> (32 - n))) % 4294967296

/-- SHA-1 round function, selected by round index `i`. -/
def sha1F (i b c d : Nat) : Nat :=
  if i < 20 then (b &&& c) ||| ((b ^^^ 4294967295) &&& d)
  else if i < 40 then b ^^^ c ^^^ d
  else if i < 60 then (b &&& c) ||| (b &&& d) ||| (c &&& d)
  else b ^^^ c ^^^ d

/-- SHA-1 round constant, selected by round index `i`. -/
def sha1K (i : Nat) : Nat :=
  if i < 20 then 0x5A827999
  else if i < 40 then 0x6ED9EBA1
  else if i < 60 then 0x8F1BBCDC
  else 0xCA62C1D6

/-- Big-endian 8-byte encoding of a 64-bit value. -/
def be64 (n : Nat) : List Nat :=
  [(n >>> 56) % 256, (n >>> 48) % 256, (n >>> 40) % 256, (n >>> 32) % 256,
   (n >>> 24) % 256, (n >>> 16) % 256, (n >>> 8) % 256, n % 256]

/-- Big-endian 4-byte encoding of a 32-bit value. -/
def be32 (n : Nat) : List Nat :=
  [(n >>> 24) % 256, (n >>> 16) % 256, (n >>> 8) % 256, n % 256]

/-- SHA-1 padding: append 0x80, zero bytes up to 56 mod 64, then the bit
length as a big-endian 64-bit integer. -/
def sha1Pad (msg : List Nat) : List Nat :=
  msg ++ [128] ++ List.replicate ((119 - (msg.length % 64)) % 64) 0 ++ be64 (8 * msg.length)

/-- Split a 64-byte block into 16 big-endian 32-bit words. -/
def toWords (block : List Nat) : List Nat :=
  (List.range 16).map (fun i =>
    (block.getD (4 * i) 0) <<< 24 + (block.getD (4 * i + 1) 0) <<< 16 +
    (block.getD (4 * i + 2) 0) <<< 8 + block.getD (4 * i + 3) 0)

/-- Message-schedule expansion: the accumulator holds the words generated so
far in reverse, so `w[t-3]` is at index 2, `w[t-8]` at 7, `w[t-14]` at 13 and
`w[t-16]` at 15. -/
def sha1ExpandGo : Nat → List Nat → List Nat
  | 0, acc => acc.reverse
  | n + 1, acc =>
      sha1ExpandGo n
        (rotl 1 ((acc.getD 2 0) ^^^ (acc.getD 7 0) ^^^ (acc.getD 13 0) ^^^ (acc.getD 15 0)) :: acc)

/-- Expand 16 words to the 80-word round schedule. -/
def sha1Expand (ws : List Nat) : List Nat := sha1ExpandGo 64 ws.reverse

/-- The five 32-bit working registers of SHA-1. -/
abbrev Sha1State := Nat × Nat × Nat × Nat × Nat

/-- One SHA-1 compression round on registers `(a, b, c, d, e)` with input
`(round index, schedule word)`. -/
def sha1Round (st : Sha1State) (iw : Nat × Nat) : Sha1State :=
  let temp :=
    (rotl 5 st.1 + sha1F iw.1 st.2.1 st.2.2.1 st.2.2.2.1 + st.2.2.2.2 + sha1K iw.1 + iw.2)
      % 4294967296
  (temp, st.1, rotl 30 st.2.1, st.2.2.1, st.2.2.2.1)

/-- Process one 64-byte block: run the 80 rounds and add the result into the
running hash state, mod 2^32. -/
def sha1Block (h : Sha1State) (block : List Nat) : Sha1State :=
  let ws := sha1Expand (toWords block)
  let r := List.foldl sha1Round h ((List.range 80).zip ws)
  ((h.1 + r.1) % 4294967296, (h.2.1 + r.2.1) % 4294967296, (h.2.2.1 + r.2.2.1) % 4294967296,
   (h.2.2.2.1 + r.2.2.2.1) % 4294967296, (h.2.2.2.2 + r.2.2.2.2) % 4294967296)

/-- Consume the padded message 64 bytes at a time.  The first argument is
fuel, always called with at least the number of blocks, so it never runs out;
fuel keeps the recursion structural and hence kernel-evaluable. -/
def sha1BlocksGo : Nat → Sha1State → List Nat → Sha1State
  | 0, st, _ => st
  | _ + 1, st, [] => st
  | fuel + 1, st, b :: rest =>
      sha1BlocksGo fuel (sha1Block st ((b :: rest).take 64)) ((b :: rest).drop 64)

/-- The SHA-1 initialization vector. -/
def sha1Init : Sha1State := (0x67452301, 0xEFCDAB89, 0x98BADCFE, 0x10325476, 0xC3D2E1F0)

/-- SHA-1 of a byte sequence, as the 20-byte big-endian digest. -/
def sha1 (msg : List Nat) : List Nat :=
  let padded := sha1Pad msg
  let r := sha1BlocksGo padded.length sha1Init padded
  be32 r.1 ++ be32 r.2.1 ++ be32 r.2.2.1 ++ be32 r.2.2.2.1 ++ be32 r.2.2.2.2

/-! ## Decimal rendering and parsing

`natDigits` embeds Rust `Display` for unsigned integers (the `{}` in
`write!(hash_writer, "{} {}\0", kind, size)`); `parseU64` embeds
`str::parse::<u64>()`, whose net effect is: an optional leading `+`, at least
one ASCII digit, nothing else, and a value representable in 64 bits. -/

/-- Decimal ASCII digits of `n`, most significant first.  Fuel-based so that
the definition is structurally recursive: `natDigitsGo fuel n` is correct
whenever `n < 10 ^ (fuel + 1)`, and `natDigits` supplies `fuel = n`. -/
def natDigitsGo : Nat → Nat → List Nat
  | 0, n => [48 + n % 10]
  | fuel + 1, n => if n < 10 then [48 + n] else natDigitsGo fuel (n / 10) ++ [48 + n % 10]

/-- Decimal ASCII representation of a natural number. -/
def natDigits (n : Nat) : List Nat := natDigitsGo n n

/-- Is every byte an ASCII digit (and the list non-empty)? -/
def allDigits (l : List Nat) : Bool := l ≠ [] && l.all (fun b => 48 ≤ b && b ≤ 57)

/-- Numeric value of a digit string (garbage on non-digits; guarded by
`allDigits`). -/
def digitsVal (l : List Nat) : Nat := l.foldl (fun acc b => acc * 10 + (b - 48)) 0

/-- `str::parse::<u64>()` on a byte string: optional leading `+`, digits,
overflow-checked against 2^64. -/
def parseU64 (s : List Nat) : Option Nat :=
  let digits := if s.head? = some 43 then s.tail else s
  if allDigits digits && digitsVal digits < 18446744073709551616 then some (digitsVal digits)
  else none

/-! ## Byte-stream primitives used by the read paths -/

/-- `BufRead::read_until(0, &mut buf)`: the bytes up to and including the
first NUL, or the whole stream if it has no NUL. -/
def takeUntilNul : List Nat → List Nat
  | [] => []
  | b :: rest => if b = 0 then [0] else b :: takeUntilNul rest

/-- `CStr::from_bytes_with_nul`: requires a terminating NUL and no interior
NUL; yields the content without the terminator. -/
def cstrFromBytesWithNul (l : List Nat) : Option (List Nat) :=
  if l.getLast? = some 0 && l.dropLast.all (fun b => b ≠ 0) then some l.dropLast else none

/-- A UTF-8 continuation byte. -/
def utf8ContOk (c : Nat) : Bool := 128 ≤ c && c ≤ 191

/-- Allowed range of the first continuation byte, which is narrower after the
lead bytes 0xE0/0xED (overlongs, surrogates) and 0xF0/0xF4 (overlongs, values
above U+10FFFF). -/
def utf8C1Ok (b c : Nat) : Bool :=
  if b = 224 then 160 ≤ c && c ≤ 191
  else if b = 237 then 128 ≤ c && c ≤ 159
  else if b = 240 then 144 ≤ c && c ≤ 191
  else if b = 244 then 128 ≤ c && c ≤ 143
  else 128 ≤ c && c ≤ 191

/-- Consume one well-formed UTF-8 scalar from the front of the byte list,
returning the remainder, or `none` if the front is ill-formed. -/
def utf8Step : List Nat → Option (List Nat)
  | [] => none
  | b :: rest =>
    if b < 128 then some rest
    else if 194 ≤ b && b ≤ 223 then
      if 1 ≤ rest.length && utf8C1Ok b (rest.getD 0 0) then some (rest.drop 1) else none
    else if 224 ≤ b && b ≤ 239 then
      if 2 ≤ rest.length && utf8C1Ok b (rest.getD 0 0) && utf8ContOk (rest.getD 1 0) then
        some (rest.drop 2)
      else none
    else if 240 ≤ b && b ≤ 244 then
      if 3 ≤ rest.length && utf8C1Ok b (rest.getD 0 0) && utf8ContOk (rest.getD 1 0)
          && utf8ContOk (rest.getD 2 0) then
        some (rest.drop 3)
      else none
    else none

/-- Fuel-driven scalar-by-scalar validation; each step consumes at least one
byte, so fuel equal to the byte count always suffices. -/
def isValidUtf8Go : Nat → List Nat → Bool
  | _, [] => true
  | 0, _ :: _ => false
  | fuel + 1, b :: rest =>
    match utf8Step (b :: rest) with
    | none => false
    | some r => isValidUtf8Go fuel r

/-- Rust `str::from_utf8` validity: well-formed UTF-8, no overlong forms, no
surrogates, no values above U+10FFFF. -/
def isValidUtf8 (l : List Nat) : Bool := isValidUtf8Go l.length l

/-- `str::split_once(sep)` at the byte level.  For an ASCII separator this
agrees with the char-level split on any valid UTF-8 string, because ASCII
bytes never occur inside a multi-byte encoded character. -/
def splitOnceByte (sep : Nat) : List Nat → Option (List Nat × List Nat)
  | [] => none
  | b :: rest =>
    if b = sep then some ([], rest)
    else (splitOnceByte sep rest).map (fun p => (b :: p.1, p.2))

/-! ## The object codec (src/object_read.rs, src/object_write.rs) -/

/-- The three object kinds (`ObjectKind` in src/object_read.rs). -/
inductive ObjectKind where
  | blob
  | tree
  | commit
deriving DecidableEq, Repr

/-- `ObjectKind::to_str`, as the UTF-8 bytes of the fixed lowercase token. -/
def ObjectKind.toStrBytes : ObjectKind → List Nat
  | .blob => [98, 108, 111, 98]
  | .tree => [116, 114, 101, 101]
  | .commit => [99, 111, 109, 109, 105, 116]

/-- Errors raised on the object read path, one constructor per `bail!` /
`context` site in `Object::read_git_object`. -/
inductive ReadErr where
  /-- "Hash objects len must be at least 3" -/
  | invalidReference
  /-- "error reading .git/objects directory" (the fan-out dir is absent) -/
  | ioError
  /-- "No objects found" -/
  | objectNotFound
  /-- "Multiple objects found: n" -/
  | ambiguousReference (count : Nat)
  /-- header read / CStr / UTF-8 / split_once failures -/
  | malformedHeader
  /-- "object size isn't a number" -/
  | sizeNotANumber
  /-- "unknown object kind" -/
  | unknownKind
deriving DecidableEq, Repr

/-- `ObjectKind::from_str` on the token bytes. -/
def ObjectKind.fromStrBytes (s : List Nat) : Except ReadErr ObjectKind :=
  if s = ObjectKind.blob.toStrBytes then .ok .blob
  else if s = ObjectKind.tree.toStrBytes then .ok .tree
  else if s = ObjectKind.commit.toStrBytes then .ok .commit
  else .error .unknownKind

/-- The header written by `Object::write`: `"<kind> <size>\0"` in bytes
(`write!(hash_writer, "{} {}\0", kind.to_str(), expected_size)`). -/
def encodeHeaderBytes (kind : ObjectKind) (size : Nat) : List Nat :=
  kind.toStrBytes ++ [32] ++ natDigits size ++ [0]

/-- The full uncompressed object content: header then payload, exactly the
byte sequence fed to the hasher and to the compressor by `Object::write`. -/
def encodeObject (kind : ObjectKind) (size : Nat) (payload : List Nat) : List Nat :=
  encodeHeaderBytes kind size ++ payload

/-- The header-parsing tail of `Object::read_git_object`, applied to the
decompressed stream: `read_until(0)`, `CStr::from_bytes_with_nul`, `to_str`
(UTF-8 check), `split_once(' ')`, `size.parse::<u64>()`,
`ObjectKind::from_str`.  Returns the kind, the declared size, and the rest of
the stream after the header. -/
def decodeObject (content : List Nat) : Except ReadErr (ObjectKind × Nat × List Nat) := do
  let buf := takeUntilNul content
  let rest := content.drop buf.length
  let some header := cstrFromBytesWithNul buf | .error .malformedHeader
  if isValidUtf8 header then
    let some (kindTok, sizeTok) := splitOnceByte 32 header | .error .malformedHeader
    let some size := parseU64 sizeTok | .error .sizeNotANumber
    let kind ← ObjectKind.fromStrBytes kindTok
    .ok (kind, size, rest)
  else .error .malformedHeader

/-! ## The object store (fan-out directory layout)

The store is modelled as an association list from the 40-hex-character object
name to the uncompressed content of the stored file (zlib compression and
decompression being a mutually inverse external pair, a reader that opens the
file and decompresses it observes exactly this content).  A fan-out
subdirectory `.git/objects/xy` exists exactly when some stored object's name
starts with `xy`, since `write_as_object` creates it with `create_dir_all`
right before publishing. -/

/-- A stored-object table: full hex name (40 chars) to decompressed content. -/
abbrev Store := List (List Char × List Nat)

/-- Lowercase hex digit. -/
def hexDigit (n : Nat) : Char := Char.ofNat (if n < 10 then 48 + n else 87 + n)

/-- `hex::encode` of a byte sequence. -/
def hexEncode (bytes : List Nat) : List Char :=
  bytes.flatMap (fun b => [hexDigit (b / 16), hexDigit (b % 16)])

/-- Publication by `rename`: the file at that exact name is replaced, all
other files are untouched. -/
def insertStore (st : Store) (key : List Char) (content : List Nat) : Store :=
  (key, content) :: st.filter (fun e => e.1 ≠ key)

/-- Does the fan-out subdirectory named by `d` (two hex chars) exist? -/
def dirExists (st : Store) (d : List Char) : Bool :=
  st.any (fun e => e.1.take 2 = d)

/-- Candidate resolution inside the fan-out subdirectory: files in the
directory named by the first two characters whose remaining name starts with
the rest of the queried prefix. -/
def filterCandidates (st : Store) (pref : List Char) : Store :=
  st.filter (fun e => e.1.take 2 = pref.take 2 && (pref.drop 2).isPrefixOf (e.1.drop 2))

/-- `Object::read_git_object(hash)`: prefix-length guard, fan-out directory
listing, candidate filtering, zero-match and multi-match errors, then header decode of
the single match's decompressed content. -/
def readGitObject (st : Store) (hash : List Char) :
    Except ReadErr (ObjectKind × Nat × List Nat) :=
  if hash.length < 3 then .error .invalidReference
  else if ¬ dirExists st (hash.take 2) then .error .ioError
  else
    let files := filterCandidates st hash
    if files.isEmpty then .error .objectNotFound
    else if files.length > 1 then .error (.ambiguousReference files.length)
    else decodeObject (files.headD ([], [])).2

/-- `Object::write(writer)`: stream the header and the payload through the
hashing-and-compressing writer; the digest of exactly those bytes is the id.
Returns (id bytes, uncompressed content that went to the compressor). -/
def objectWrite (kind : ObjectKind) (size : Nat) (payload : List Nat) :
    List Nat × List Nat :=
  let content := encodeObject kind size payload
  (sha1 content, content)

/-- `Object::write_as_object`: write to a private temp file, then
`create_dir_all` the fan-out directory and `rename` into place.  Returns the
id and the updated store. -/
def writeAsObject (st : Store) (kind : ObjectKind) (size : Nat) (payload : List Nat) :
    List Nat × Store :=
  let w := objectWrite kind size payload
  (w.1, insertStore st (hexEncode w.1) w.2)

/-! ## cat_file (src/cat_file.rs)

`git_cat_file` re-implements the lookup and header parse inline (accepting
only `"blob"` as a kind), then copies at most the declared size from the
decompressed stream (`copy(&mut reader.take(size), &mut sout)`) and checks
the copied count against the declared size. -/

/-- Errors raised by `git_cat_file` after lookup, one per `bail!`/`ensure!`. -/
inductive CatErr where
  /-- header read / CStr / UTF-8 / split_once failures -/
  | malformedHeader
  /-- "unknown object kind" (anything but "blob") -/
  | unknownKind
  /-- "object size isn't a number" -/
  | sizeNotANumber
  /-- "object size mismatch, expected e, got g" -/
  | sizeMismatch (expected got : Nat)
deriving DecidableEq, Repr

/-- `reader.take(size)` then `copy`: the bytes actually delivered to the
caller, never more than `size` of them. -/
def boundedCopy (size : Nat) (stream : List Nat) : List Nat := stream.take size

/-- The body of `git_cat_file` applied to the decompressed content of the
resolved object file; returns the bytes written to stdout. -/
def gitCatFileContent (content : List Nat) : Except CatErr (List Nat) :=
  let buf := takeUntilNul content
  let rest := content.drop buf.length
  match cstrFromBytesWithNul buf with
  | none => .error .malformedHeader
  | some header =>
    if isValidUtf8 header then
      match splitOnceByte 32 header with
      | none => .error .malformedHeader
      | some (kindTok, sizeTok) =>
        if kindTok = ObjectKind.blob.toStrBytes then
          match parseU64 sizeTok with
          | none => .error .sizeNotANumber
          | some size =>
            let delivered := boundedCopy size rest
            if delivered.length = size then .ok delivered
            else .error (.sizeMismatch size delivered.length)
        else .error .unknownKind
    else .error .malformedHeader

/-! ## ls_tree (src/ls_tree.rs)

`git_read_tree_content` loops `read_until(0)` + `read_exact(20)` until the
stream is exhausted.  The declared size is *not* consulted — the source
itself carries `// TODO: read only expected size` — so the loop parses
whatever the decompressed stream contains. -/

/-- A parsed tree entry as printed by `git_ls_tree`. -/
structure TreeEntry where
  mode : List Nat
  name : List Nat
  hash : List Nat
  kind : ObjectKind
deriving DecidableEq, Repr

/-- Errors raised by `git_ls_tree` / `git_read_tree_content`. -/
inductive LsErr where
  /-- lookup or header decode failed in `read_git_object` -/
  | readError (e : ReadErr)
  /-- "not a tree object" -/
  | notATree
  /-- "invalid tree entry format" / "tree entry contain invalid UTF-8" -/
  | invalidEntry
  /-- `u32::from_str_radix(mode, 8)` failed -/
  | modeParseError
  /-- fuel exhausted; unreachable, since every loop iteration consumes at
  least one byte and fuel starts at the stream length -/
  | outOfFuel
deriving DecidableEq, Repr

/-- `u32::from_str_radix(s, 8)`: optional leading `+`, at least one octal
digit, overflow-checked against 2^32. -/
def parseOctalU32 (s : List Nat) : Option Nat :=
  let digits := if s.head? = some 43 then s.tail else s
  let ok := digits ≠ [] && digits.all (fun b => 48 ≤ b && b ≤ 55)
  let val := digits.foldl (fun acc b => acc * 8 + (b - 48)) 0
  if ok && val < 4294967296 then some val else none

/-- `ObjectKind::from_mode`: parse the mode as octal, then map `0o40000` to
Tree, `0o160000` to Commit, anything else to Blob. -/
def ObjectKind.fromModeBytes (s : List Nat) : Except LsErr ObjectKind :=
  match parseOctalU32 s with
  | none => .error .modeParseError
  | some v =>
    if v = 0o40000 then .ok .tree
    else if v = 0o160000 then .ok .commit
    else .ok .blob

/-- The entry loop of `git_read_tree_content`.  Fuel-based structural
recursion; called with fuel = stream length, which always suffices because
each iteration consumes the NUL-terminated segment (at least one byte) plus
20 hash bytes. -/
def readTreeEntriesGo : Nat → List Nat → Except LsErr (List TreeEntry)
  | _, [] => .ok []
  | 0, _ :: _ => .error .outOfFuel
  | fuel + 1, b :: s =>
    let buf := takeUntilNul (b :: s)
    let rest := (b :: s).drop buf.length
    match cstrFromBytesWithNul buf with
    | none => .error .invalidEntry
    | some modeAndName =>
      if isValidUtf8 modeAndName then
        match splitOnceByte 32 modeAndName with
        | none => .error .invalidEntry
        | some (mode, name) =>
          if rest.length < 20 then .error .invalidEntry
          else
            match ObjectKind.fromModeBytes mode with
            | .error e => .error e
            | .ok kind =>
              match readTreeEntriesGo fuel (rest.drop 20) with
              | .error e => .error e
              | .ok entries => .ok (⟨mode, name, rest.take 20, kind⟩ :: entries)
      else .error .invalidEntry

/-- `git_ls_tree` on the decompressed content of the resolved object: decode
the header, require kind Tree, then run the entry loop on the remaining
stream.  The declared size from the header is dropped on the floor. -/
def gitLsTreeContent (content : List Nat) : Except LsErr (List TreeEntry) :=
  match decodeObject content with
  | .error e => .error (.readError e)
  | .ok (kind, _declaredSize, rest) =>
    if kind = .tree then readTreeEntriesGo rest.length rest
    else .error .notATree

/-! ## write_tree (src/write_tree.rs) -/

/-- Rust slice `cmp`: lexicographic byte comparison. -/
def lexCmp : List Nat → List Nat → Ordering
  | [], [] => .eq
  | [], _ :: _ => .lt
  | _ :: _, [] => .gt
  | a :: as_, b :: bs =>
    match compare a b with
    | .eq => lexCmp as_ bs
    | o => o

/-- Rust `Option<u8>` ordering: `None` sorts before `Some`. -/
def optCmp : Option Nat → Option Nat → Ordering
  | none, none => .eq
  | none, some _ => .lt
  | some _, none => .gt
  | some a, some b => compare a b

/-- The tree-entry comparator from `git_write_tree_with_path`: compare the
common-prefix slices; on equality, compare the next byte of each name, where
an exhausted name falls back to `'/'` (0x2F) if that entry is a directory and
to `None` otherwise. -/
def entryCmpRaw (af : List Nat) (aDir : Bool) (bf : List Nat) (bDir : Bool) : Ordering :=
  let minLen := min af.length bf.length
  match lexCmp (af.take minLen) (bf.take minLen) with
  | .eq =>
    let a1 := (af.get? minLen).or (if aDir then some 47 else none)
    let b1 := (bf.get? minLen).or (if bDir then some 47 else none)
    optCmp a1 b1
  | o => o

/-- The `Metadata` fields `get_mode_for_entry` inspects: `is_dir`,
`is_symlink`, and the permission bits of `permissions().mode()`. -/
structure Metadata where
  isDir : Bool
  isSymlink : Bool
  mode : Nat
deriving DecidableEq, Repr

/-- `get_mode_for_entry`. -/
def get_mode_for_entry (meta : Metadata) : String :=
  if meta.isDir then "40000"
  else if meta.isSymlink then "120000"
  else if meta.mode &&& 0o111 ≠ 0 then "100755"
  else "100644"

/-- UTF-8 bytes of an ASCII string (`str::as_bytes` for the mode tokens). -/
def strBytes (s : String) : List Nat := s.toList.map Char.toNat

/-- A directory entry as yielded by the walking collaborator: a leaf file
(with content bytes, symlink flag and permission bits) or a subdirectory with
its own entries. -/
inductive FsEntry where
  | file (name : List Nat) (content : List Nat) (symlink : Bool) (perm : Nat) : FsEntry
  | dir (name : List Nat) (children : List FsEntry) : FsEntry

/-- `entry.file_name().as_encoded_bytes()`. -/
def FsEntry.fileName : FsEntry → List Nat
  | .file n _ _ _ => n
  | .dir n _ => n

/-- `entry.path().is_dir()`. -/
def FsEntry.pathIsDir : FsEntry → Bool
  | .file _ _ _ _ => false
  | .dir _ _ => true

/-- `entry.metadata()`. -/
def FsEntry.metadata : FsEntry → Metadata
  | .file _ _ sym perm => ⟨false, sym, perm⟩
  | .dir _ _ => ⟨true, false, 0⟩

/-- The comparator applied to two walker entries. -/
def entryCmp (a b : FsEntry) : Ordering :=
  entryCmpRaw a.fileName a.pathIsDir b.fileName b.pathIsDir

/-- `entries.sort_unstable_by(...)` with the comparator above. -/
def sortEntries (es : List FsEntry) : List FsEntry :=
  es.mergeSort (fun a b => entryCmp a b ≠ .gt)

/-- One serialized tree entry:
`"<mode> <name>\0" ++ <20 raw hash bytes>`, with the mode from
`get_mode_for_entry(entry.metadata())`. -/
def entryBytes (e : FsEntry) (hash : List Nat) : List Nat :=
  strBytes (get_mode_for_entry e.metadata) ++ [32] ++ e.fileName ++ [0] ++ hash

/-- `git_hash_object(path, true)` on a file: `write_blob` hashes
`"blob <len>\0" ++ content` (the id of the stored blob). -/
def gitHashObjectId (content : List Nat) : List Nat :=
  (objectWrite .blob content.length content).1

mutual

/-- The entry loop of `git_write_tree_with_path` over the sorted entries:
files are stored as blobs and contribute an entry; subdirectories recurse and
are skipped entirely (`continue`) when the recursive call returns none. -/
def treeOut : List FsEntry → List Nat
  | [] => []
  | .file n c sym perm :: rest =>
      entryBytes (.file n c sym perm) (gitHashObjectId c) ++ treeOut rest
  | .dir n cs :: rest =>
      (match buildTree cs with
       | none => []
       | some h => entryBytes (.dir n cs) h) ++ treeOut rest
  termination_by l => 2 * sizeOf l
  decreasing_by
  · simp only [List.cons.sizeOf_spec, FsEntry.file.sizeOf_spec]; omega
  · simp only [List.cons.sizeOf_spec, FsEntry.dir.sizeOf_spec]; omega
  · simp only [List.cons.sizeOf_spec, FsEntry.dir.sizeOf_spec]; omega

/-- `git_write_tree_with_path` on the children of a directory: sort, build
the concatenated entry list, return none if it is empty, otherwise store it
as a Tree object and return the id. -/
def buildTree (children : List FsEntry) : Option (List Nat) :=
  let out := treeOut (sortEntries children)
  if out = [] then none
  else some (objectWrite .tree out.length out).1
  termination_by 2 * sizeOf children + 1
  decreasing_by
  · have hperm : ∀ {l1 l2 : List FsEntry}, l1.Perm l2 → sizeOf l1 = sizeOf l2 := by
      intro l1 l2 h
      induction h with
      | nil => rfl
      | cons x _ ih => simp only [List.cons.sizeOf_spec, ih]
      | swap x y l => simp only [List.cons.sizeOf_spec]; omega
      | trans _ _ ih1 ih2 => omega
    have h := hperm (List.mergeSort_perm children (fun a b => entryCmp a b ≠ .gt))
    simp only [sortEntries]
    omega

end

mutual

/-- Does this entry transitively contain any file? -/
def hasFile : FsEntry → Bool
  | .file _ _ _ _ => true
  | .dir _ cs => hasFileList cs

/-- Does any entry of the list transitively contain a file? -/
def hasFileList : List FsEntry → Bool
  | [] => false
  | e :: es => hasFile e || hasFileList es

end

/-! ## commit (src/commit.rs) -/

/-- Rust `format!("{:02}", n)`: at least two characters, zero-padded. -/
def pad2 (n : Nat) : String := if n < 10 then "0" ++ toString n else toString n

/-- Rust `format!("{:+03}", h)` on a signed integer: always-signed, total
width at least 3, zero-padded after the sign. -/
def fmtPlus03 (h : Int) : String :=
  (if h < 0 then "-" else "+") ++ pad2 h.natAbs

/-- The timezone string of `get_time_and_timezone`:
`hours = offset_seconds / 3600` (Rust integer division truncates toward
zero), `minutes = offset_seconds.abs() % 3600 / 60`, rendered
`format!("{:+03}{:02}", hours, minutes)`. -/
def getTimezone (offsetSeconds : Int) : String :=
  fmtPlus03 (Int.tdiv offsetSeconds 3600) ++ pad2 (offsetSeconds.natAbs % 3600 / 60)

/-- The text body built by `git_write_commit`: the sequence of `writeln!`
calls, each appending its line plus a newline, with identity and timestamp
supplied by the external config/clock collaborators. -/
def gitWriteCommitBody (treeHash : String) (parentHash : Option String)
    (message name email : String) (time : Int) (offsetSeconds : Int) : String :=
  "tree " ++ treeHash ++ "\n" ++
  (match parentHash with
   | some p => "parent " ++ p ++ "\n"
   | none => "") ++
  "author " ++ name ++ " <" ++ email ++ "> " ++ toString time ++ " "
    ++ getTimezone offsetSeconds ++ "\n" ++
  "committer " ++ name ++ " <" ++ email ++ "> " ++ toString time ++ " "
    ++ getTimezone offsetSeconds ++ "\n" ++
  "\n" ++
  message ++ "\n"

/-- `git_write_commit`: persist the body as a Commit object (the size is the
byte length of the body; for the ASCII-range bodies modelled here this equals
the character count). -/
def gitWriteCommit (st : Store) (treeHash : String) (parentHash : Option String)
    (message name email : String) (time : Int) (offsetSeconds : Int) :
    List Nat × Store :=
  let out := gitWriteCommitBody treeHash parentHash message name email time offsetSeconds
  writeAsObject st .commit (strBytes out).length (strBytes out)

/-- Modelled from the spec's words (§4.4): the timezone rendered as `±HHMM`,
sign of the offset itself, then two-digit whole hours and two-digit leftover
minutes of its absolute value. -/
def tzSpecStr (offsetSeconds : Int) : String :=
  (if offsetSeconds < 0 then "-" else "+")
    ++ pad2 (offsetSeconds.natAbs / 3600) ++ pad2 (offsetSeconds.natAbs % 3600 / 60)

/-- Modelled from the spec's words (§3, §4.4): one `tree` line, one `parent`
line only if present, `author` and `committer` lines sharing one identity and
timestamp, a blank line, then the message verbatim, newline-terminated; the
timestamp in decimal seconds and the timezone as `±HHMM`. -/
def commitBodySpec (treeHash : String) (parentHash : Option String)
    (message name email : String) (time : Int) (offsetSeconds : Int) : String :=
  "tree " ++ treeHash ++ "\n" ++
  (match parentHash with
   | some p => "parent " ++ p ++ "\n"
   | none => "") ++
  "author " ++ name ++ " <" ++ email ++ "> " ++ toString time ++ " "
    ++ tzSpecStr offsetSeconds ++ "\n" ++
  "committer " ++ name ++ " <" ++ email ++ "> " ++ toString time ++ " "
    ++ tzSpecStr offsetSeconds ++ "\n" ++
  "\n" ++
  message ++ "\n"

/-! ## Atomic publication (src/object_write.rs, `write_as_object`)

The filesystem operations `write_as_object` performs, in order: a sequence of
writes to the private temporary file (header, then the payload in whatever
chunks `copy` produces), `create_dir_all` on the fan-out directory, and one
`rename` of the temporary file onto the final path.  `rename` is atomic at
the OS level, so it is one indivisible operation of the trace.  A concurrent
reader observes the state between any two operations. -/

/-- One filesystem operation of the write path. -/
inductive FsOp where
  /-- a `write` to the private temporary file -/
  | writeTmp (chunk : List Nat)
  /-- `create_dir_all(".git/objects/xy")` -/
  | mkDir
  /-- `rename(tmp, final)` — atomic publication -/
  | renameTmpToFinal
deriving DecidableEq, Repr

/-- What a reader can observe: the temporary file's content (private to the
writer) and the final path (absent until published). -/
structure ObsState where
  tmp : List Nat
  final : Option (List Nat)
deriving DecidableEq, Repr

/-- Effect of one operation on the observable state. -/
def applyOp (s : ObsState) : FsOp → ObsState
  | .writeTmp c => { s with tmp := s.tmp ++ c }
  | .mkDir => s
  | .renameTmpToFinal => { s with final := some s.tmp }

/-- Run a sequence of operations from the initial state (empty temporary
file, nothing at the final path). -/
def runOps (ops : List FsOp) : ObsState :=
  ops.foldl applyOp ⟨[], none⟩

/-- The operation trace of `write_as_object` when the combined writer emits
the object content in the given chunks. -/
def writeAsObjectTrace (chunks : List (List Nat)) : List FsOp :=
  chunks.map FsOp.writeTmp ++ [FsOp.mkDir, FsOp.renameTmpToFinal]

/-! ## The hashing writer (`HashWriter` in src/object_write.rs and
src/hash_object.rs)

`HashWriter::write` first forwards the buffer to the inner (compressing)
writer; if that accepted `n` bytes, it updates the SHA-1 hasher with exactly
`&buf[..n]` and reports `n`.  The inner writer is an arbitrary `Write`
implementation, modelled as a state machine that consumes some prefix of each
buffer; its specification field `received` records the bytes it has consumed
so far. -/

/-- An abstract inner `Write` implementation: `step s buf` returns `none` on
an I/O error, or the number of bytes accepted (a short write is any `n <
buf.length`) with the successor state.  `received` is the ghost ledger of
consumed bytes, constrained by the two laws. -/
structure InnerWriter (σ : Type) where
  step : σ → List Nat → Option (Nat × σ)
  received : σ → List Nat
  step_le : ∀ s buf n s2, step s buf = some (n, s2) → n ≤ buf.length
  step_received : ∀ s buf n s2, step s buf = some (n, s2) →
    received s2 = received s ++ buf.take n

/-- The `HashWriter` state: the bytes fed to the SHA-1 hasher so far, and the
inner writer's state. -/
structure HWState (σ : Type) where
  hasherInput : List Nat
  inner : σ

/-- `HashWriter::write(buf)`: forward to the inner writer; on success with
`n` accepted bytes, update the hasher with `buf[..n]`.  On error the `?`
operator returns early and the hasher is not touched. -/
def hwWrite {σ : Type} (w : InnerWriter σ) (st : HWState σ) (buf : List Nat) :
    Option (HWState σ) :=
  match w.step st.inner buf with
  | none => none
  | some (n, s2) => some ⟨st.hasherInput ++ buf.take n, s2⟩

/-- A sequence of `write` calls through the `HashWriter`. -/
def hwWriteAll {σ : Type} (w : InnerWriter σ) (st : HWState σ) :
    List (List Nat) → Option (HWState σ)
  | [] => some st
  | buf :: bufs =>
    match hwWrite w st buf with
    | none => none
    | some st2 => hwWriteAll w st2 bufs

/-- A concrete inner writer used to exercise the hashing wrapper: it accepts
every buffer whole and its state is exactly the bytes received so far. -/
def sinkWriter : InnerWriter (List Nat) where
  step s buf := some (buf.length, s ++ buf)
  received s := s
  step_le := fun s buf n s2 h => by
    simp only [Option.some.injEq, Prod.mk.injEq] at h
    omega
  step_received := fun s buf n s2 h => by
    simp only [Option.some.injEq, Prod.mk.injEq] at h
    rw [← h.2, ← h.1, List.take_length]

/-! ## Spec-side comparator (for the refinement claim about sort order) -/

/-- Modelled from the spec's words (§4.3): walk the two names byte by byte
over their common prefix; at the first divergent position, a name that is
exhausted contributes the implied byte `'/'` (0x2F) when that entry is a
directory and otherwise is treated as absent, which sorts first. -/
def specWalk : List Nat → Bool → List Nat → Bool → Ordering
  | [], aDir, [], bDir =>
      optCmp (if aDir then some 47 else none) (if bDir then some 47 else none)
  | [], aDir, b :: _, _ => optCmp (if aDir then some 47 else none) (some b)
  | a :: _, _, [], bDir => optCmp (some a) (if bDir then some 47 else none)
  | a :: as_, aDir, b :: bs, bDir =>
      if a = b then specWalk as_ aDir bs bDir else compare a b

/-! # Theorems

First the helper lemmas about the byte-level utilities, then one theorem per
claim. -/

/-! ## Decimal rendering -/

theorem natDigitsGo_mem_bounds :
    ∀ fuel n, ∀ b ∈ natDigitsGo fuel n, 48 ≤ b ∧ b ≤ 57 := by
  intro fuel
  induction fuel with
  | zero =>
    intro n b hb
    simp only [natDigitsGo, List.mem_singleton] at hb
    have := Nat.mod_lt n (show 0 < 10 by norm_num)
    omega
  | succ f ih =>
    intro n b hb
    simp only [natDigitsGo] at hb
    by_cases h : n < 10
    · simp [h] at hb; omega
    · simp only [if_neg h, List.mem_append, List.mem_singleton] at hb
      rcases hb with hb | hb
      · exact ih (n / 10) b hb
      · have := Nat.mod_lt n (show 0 < 10 by norm_num)
        omega

theorem natDigitsGo_ne_nil : ∀ fuel n, natDigitsGo fuel n ≠ [] := by
  intro fuel n
  cases fuel with
  | zero => simp [natDigitsGo]
  | succ f =>
    simp only [natDigitsGo]
    by_cases h : n < 10 <;> simp [h]

theorem digitsVal_concat (xs : List Nat) (d : Nat) :
    digitsVal (xs ++ [d]) = 10 * digitsVal xs + (d - 48) := by
  simp only [digitsVal, List.foldl_append, List.foldl_cons, List.foldl_nil]
  omega

theorem natDigitsGo_val :
    ∀ fuel n, n < 10 ^ (fuel + 1) → digitsVal (natDigitsGo fuel n) = n := by
  intro fuel
  induction fuel with
  | zero =>
    intro n hn
    have hn10 : n < 10 := by simpa using hn
    simp only [natDigitsGo, digitsVal, List.foldl_cons, List.foldl_nil]
    omega
  | succ f ih =>
    intro n hn
    simp only [natDigitsGo]
    by_cases h : n < 10
    · simp only [if_pos h, digitsVal, List.foldl_cons, List.foldl_nil]
      omega
    · rw [if_neg h, digitsVal_concat, ih (n / 10)]
      · have := Nat.mod_lt n (show 0 < 10 by norm_num)
        omega
      · rw [Nat.div_lt_iff_lt_mul (show 0 < 10 by norm_num)]
        calc n < 10 ^ (f + 1 + 1) := hn
        _ = 10 ^ (f + 1) * 10 := by ring

theorem natDigits_mem_bounds (n : Nat) : ∀ b ∈ natDigits n, 48 ≤ b ∧ b ≤ 57 :=
  natDigitsGo_mem_bounds n n

theorem natDigits_ne_nil (n : Nat) : natDigits n ≠ [] := natDigitsGo_ne_nil n n

theorem natDigits_val (n : Nat) : digitsVal (natDigits n) = n := by
  apply natDigitsGo_val
  calc n < 10 ^ n := Nat.lt_pow_self (by norm_num) n
  _ ≤ 10 ^ (n + 1) := Nat.pow_le_pow_right (by norm_num) (Nat.le_succ n)

theorem allDigits_natDigits (n : Nat) : allDigits (natDigits n) = true := by
  simp only [allDigits, Bool.and_eq_true, decide_eq_true_eq, List.all_eq_true]
  refine ⟨by simpa using natDigits_ne_nil n, ?_⟩
  intro b hb
  have := natDigits_mem_bounds n b hb
  omega

theorem parseU64_natDigits (n : Nat) (hn : n < 18446744073709551616) :
    parseU64 (natDigits n) = some n := by
  have hval := natDigits_val n
  have hall := allDigits_natDigits n
  have hne := natDigits_ne_nil n
  rcases hhead : natDigits n with _ | ⟨b, t⟩
  · exact absurd hhead hne
  · have hb : 48 ≤ b ∧ b ≤ 57 := natDigits_mem_bounds n b (by rw [hhead]; exact List.mem_cons_self b t)
    have hb43 : b ≠ 43 := by omega
    rw [hhead] at hval hall
    simp [parseU64, hb43, hall, hval, hn]

/-! ## Byte-stream lemmas -/

theorem takeUntilNul_of_no_nul_append :
    ∀ (xs rest : List Nat), (∀ b ∈ xs, b ≠ 0) →
      takeUntilNul (xs ++ 0 :: rest) = xs ++ [0] := by
  intro xs
  induction xs with
  | nil => intro rest _; simp [takeUntilNul]
  | cons x t ih =>
    intro rest hx
    have hx0 : x ≠ 0 := hx x (List.mem_cons_self x t)
    simp only [List.cons_append, takeUntilNul, if_neg hx0, List.append_eq]
    rw [ih rest (fun b hb => hx b (List.mem_cons_of_mem x hb))]

theorem cstr_concat_nul (xs : List Nat) (h : ∀ b ∈ xs, b ≠ 0) :
    cstrFromBytesWithNul (xs ++ [0]) = some xs := by
  simp [cstrFromBytesWithNul, List.getLast?_concat, List.dropLast_concat, h]
  exact fun hmem => h 0 hmem rfl

theorem isValidUtf8Go_of_ascii :
    ∀ (fuel : Nat) (l : List Nat), l.length ≤ fuel → (∀ b ∈ l, b < 128) →
      isValidUtf8Go fuel l = true := by
  intro fuel
  induction fuel with
  | zero =>
    intro l hlen _
    cases l with
    | nil => rfl
    | cons b t => simp at hlen
  | succ f ih =>
    intro l hlen hb
    cases l with
    | nil => rfl
    | cons b t =>
      have h0 : b < 128 := hb b (List.mem_cons_self b t)
      simp only [isValidUtf8Go, utf8Step, if_pos h0]
      exact ih t (by simpa using hlen) (fun x hx => hb x (List.mem_cons_of_mem b hx))

theorem isValidUtf8_of_ascii (l : List Nat) (h : ∀ b ∈ l, b < 128) :
    isValidUtf8 l = true :=
  isValidUtf8Go_of_ascii l.length l le_rfl h

theorem splitOnceByte_append :
    ∀ (xs ys : List Nat) (sep : Nat), (∀ b ∈ xs, b ≠ sep) →
      splitOnceByte sep (xs ++ sep :: ys) = some (xs, ys) := by
  intro xs ys sep
  induction xs with
  | nil => intro _; simp [splitOnceByte]
  | cons x t ih =>
    intro hx
    have hxs : x ≠ sep := hx x (List.mem_cons_self x t)
    simp only [List.cons_append, splitOnceByte, if_neg hxs, List.append_eq]
    rw [ih (fun b hb => hx b (List.mem_cons_of_mem x hb))]
    rfl

/-! ## Object-kind token facts -/

theorem toStrBytes_range (k : ObjectKind) :
    ∀ b ∈ k.toStrBytes, 97 ≤ b ∧ b ≤ 116 := by
  cases k <;> decide

theorem fromStrBytes_toStrBytes (k : ObjectKind) :
    ObjectKind.fromStrBytes k.toStrBytes = .ok k := by
  cases k <;> rfl

/-! ## Header decode round-trip -/

theorem decodeObject_encodeObject (k : ObjectKind) (n : Nat) (B : List Nat)
    (hn : n < 18446744073709551616) :
    decodeObject (encodeObject k n B) = .ok (k, n, B) := by
  have hkind := toStrBytes_range k
  have hdig := natDigits_mem_bounds n
  have hxs : ∀ b ∈ k.toStrBytes ++ 32 :: natDigits n, b ≠ 0 := by
    intro b hb
    rcases List.mem_append.1 hb with h | h
    · have := hkind b h; omega
    · rcases List.mem_cons.1 h with rfl | h
      · omega
      · have := hdig b h; omega
  have hcontent : encodeObject k n B = (k.toStrBytes ++ 32 :: natDigits n) ++ 0 :: B := by
    simp [encodeObject, encodeHeaderBytes]
  have htake : takeUntilNul (encodeObject k n B) = (k.toStrBytes ++ 32 :: natDigits n) ++ [0] := by
    rw [hcontent]
    exact takeUntilNul_of_no_nul_append _ B hxs
  have hlen : ((k.toStrBytes ++ 32 :: natDigits n) ++ [0]).length
      = (k.toStrBytes ++ 32 :: natDigits n).length + 1 := by simp; omega
  have hdrop : (encodeObject k n B).drop ((k.toStrBytes ++ 32 :: natDigits n).length + 1) = B := by
    rw [hcontent, show (k.toStrBytes ++ 32 :: natDigits n) ++ 0 :: B
      = ((k.toStrBytes ++ 32 :: natDigits n) ++ [0]) ++ B by simp, ← hlen]
    exact List.drop_left _ B
  have hcstr : cstrFromBytesWithNul ((k.toStrBytes ++ 32 :: natDigits n) ++ [0])
      = some (k.toStrBytes ++ 32 :: natDigits n) := cstr_concat_nul _ hxs
  have hutf : isValidUtf8 (k.toStrBytes ++ 32 :: natDigits n) = true := by
    apply isValidUtf8_of_ascii
    intro b hb
    rcases List.mem_append.1 hb with h | h
    · have := hkind b h; omega
    · rcases List.mem_cons.1 h with rfl | h
      · omega
      · have := hdig b h; omega
  have hsplit : splitOnceByte 32 (k.toStrBytes ++ 32 :: natDigits n)
      = some (k.toStrBytes, natDigits n) := by
    apply splitOnceByte_append
    intro b hb
    have := hkind b hb; omega
  simp only [decodeObject, htake, hlen, hdrop, hcstr, hutf, hsplit,
    parseU64_natDigits n hn, fromStrBytes_toStrBytes, if_pos]
  rfl

/-! ## Store lemmas -/

theorem sha1_length (msg : List Nat) : (sha1 msg).length = 20 := by
  simp [sha1, be32]

theorem hexEncode_length (l : List Nat) : (hexEncode l).length = 2 * l.length := by
  induction l with
  | nil => rfl
  | cons b t ih =>
    simp only [hexEncode, List.flatMap_cons, List.length_append, List.length_cons,
      List.length_nil] at *
    omega

theorem candidate_no_match_of_ne (key k2 : List Char) (hkey : key.length = 40)
    (hlen : k2.length = 40) (hne : k2 ≠ key) :
    ¬(k2.take 2 = key.take 2 ∧ (key.drop 2).isPrefixOf (k2.drop 2) = true) := by
  rintro ⟨h2, hpref⟩
  have hp : (key.drop 2) <+: (k2.drop 2) := List.isPrefixOf_iff_prefix.mp hpref
  have hlen2 : (key.drop 2).length = (k2.drop 2).length := by simp [hlen, hkey]
  have heq : key.drop 2 = k2.drop 2 := List.IsPrefix.eq_of_length hp hlen2
  apply hne
  calc k2 = k2.take 2 ++ k2.drop 2 := (List.take_append_drop 2 k2).symm
  _ = key.take 2 ++ key.drop 2 := by rw [h2, heq]
  _ = key := List.take_append_drop 2 key

theorem filterCandidates_insert (st : Store) (key : List Char) (c : List Nat)
    (hkey : key.length = 40) (hkeys : ∀ e ∈ st, e.1.length = 40) :
    filterCandidates (insertStore st key c) key = [(key, c)] := by
  simp only [filterCandidates, insertStore, List.filter_cons]
  rw [if_pos (by simp [List.isPrefixOf_iff_prefix])]
  congr 1
  rw [List.filter_eq_nil_iff]
  intro e he
  have hmem : e ∈ st := List.mem_of_mem_filter he
  have hne : e.1 ≠ key := by
    have := List.of_mem_filter he
    simpa using this
  have hnomatch := candidate_no_match_of_ne key e.1 hkey (hkeys e hmem) hne
  simp only [Bool.and_eq_true, decide_eq_true_eq, not_and] at hnomatch ⊢
  exact fun h1 h2 => hnomatch h1 h2

theorem dirExists_insert (st : Store) (key : List Char) (c : List Nat) :
    dirExists (insertStore st key c) (key.take 2) = true := by
  simp [dirExists, insertStore]

/-- C1.  Store round-trip: writing payload `B` under kind `K` and reading
back the resulting id (over any store whose existing names are well-formed
40-character hex ids) yields a decoded object with kind `K`, declared size
`len B`, and remaining stream exactly `B`; the bounded reader then delivers
exactly `B`.  (In the model a write always succeeds; the size bound is the
`u64` range of the declared size.) -/
theorem store_round_trip (st : Store) (k : ObjectKind) (B : List Nat)
    (hkeys : ∀ e ∈ st, e.1.length = 40) (hB : B.length < 18446744073709551616) :
    readGitObject (writeAsObject st k B.length B).2 (hexEncode (writeAsObject st k B.length B).1)
      = .ok (k, B.length, B)
    ∧ boundedCopy B.length B = B := by
  constructor
  · have hkeylen : (hexEncode (sha1 (encodeObject k B.length B))).length = 40 := by
      rw [hexEncode_length, sha1_length]
    simp only [writeAsObject, objectWrite]
    rw [readGitObject]
    rw [if_neg (by rw [hkeylen]; omega)]
    rw [if_neg (by simp [dirExists_insert])]
    rw [filterCandidates_insert st _ _ hkeylen hkeys]
    simp only [List.isEmpty_cons, List.length_cons, List.length_nil, List.headD_cons]
    rw [if_neg (by simp), if_neg (by omega)]
    exact decodeObject_encodeObject k B.length B hB
  · exact List.take_length B

/-- Witness for C1 at a concrete input: the empty store, kind Blob, payload
"hi". -/
theorem store_round_trip_witness :
    (∀ e ∈ ([] : Store), e.1.length = 40)
    ∧ ([104, 105] : List Nat).length < 18446744073709551616
    ∧ readGitObject (writeAsObject [] .blob 2 [104, 105]).2
        (hexEncode (writeAsObject [] .blob 2 [104, 105]).1) = .ok (.blob, 2, [104, 105]) :=
  ⟨by simp, by decide,
    by
      have h := (store_round_trip [] .blob [104, 105] (by simp) (by decide)).1
      simpa using h⟩

/-- C5.  Lookup error resolution: a prefix shorter than 3 characters fails
with `InvalidReference`; when the fan-out subdirectory exists and candidate
resolution finds zero matches the read fails with `ObjectNotFound`; when it
finds more than one match it fails with `AmbiguousReference` carrying the
match count — never silently picking one. -/
theorem lookup_error_resolution (st : Store) (h : List Char) :
    (h.length < 3 → readGitObject st h = .error .invalidReference)
    ∧ (3 ≤ h.length → dirExists st (h.take 2) = true → filterCandidates st h = [] →
        readGitObject st h = .error .objectNotFound)
    ∧ (3 ≤ h.length → dirExists st (h.take 2) = true →
        2 ≤ (filterCandidates st h).length →
        readGitObject st h = .error (.ambiguousReference (filterCandidates st h).length)) := by
  refine ⟨?_, ?_, ?_⟩
  · intro hlt
    simp [readGitObject, hlt]
  · intro hge hdir hempty
    rw [readGitObject, if_neg (by omega), if_neg (by simp [hdir])]
    simp [hempty]
  · intro hge hdir hlen
    rw [readGitObject, if_neg (by omega), if_neg (by simp [hdir])]
    have hne : (filterCandidates st h).isEmpty = false := by
      cases hcand : filterCandidates st h with
      | nil => rw [hcand] at hlen; simp at hlen
      | cons a t => simp
    simp only [hne, Bool.false_eq_true, if_false]
    rw [if_pos (by omega)]

/-- Witness for C5: all three error paths at concrete stores and prefixes. -/
theorem lookup_error_resolution_witness :
    readGitObject [] "ab".toList = .error .invalidReference
    ∧ readGitObject [("abc".toList, []), ("abd".toList, [])] "abz".toList
        = .error .objectNotFound
    ∧ readGitObject [("abc1".toList, []), ("abc2".toList, [])] "abc".toList
        = .error (.ambiguousReference 2) :=
  ⟨(lookup_error_resolution [] "ab".toList).1 (by decide),
   (lookup_error_resolution _ "abz".toList).2.1 (by decide) (by decide) (by decide),
   ((lookup_error_resolution [("abc1".toList, []), ("abc2".toList, [])] "abc".toList).2.2
      (by decide) (by decide) (by decide)).trans (by decide)⟩

set_option maxRecDepth 200000 in
/-- C6 (counterexample).  The claimed id for the 12-byte blob
"hello world\n" — `557db03de997c86a4a028e1ebd3a1ceb225be238` — is not what
the write path produces (it is not the SHA-1 of `"blob 12\0hello world\n"`
at all). -/
theorem hello_world_id_counterexample :
    hexEncode (gitHashObjectId (strBytes "hello world\n"))
      ≠ "557db03de997c86a4a028e1ebd3a1ceb225be238".toList := by
  decide

set_option maxRecDepth 200000 in
/-- C6 (amended).  The encoded header is the kind token, a space, the
decimal ASCII size (a non-empty all-digit string whose value is the size),
then a NUL byte; and writing the 12-byte file "hello world\n" as a Blob
produces the id `3b18e512dba79e4c8300dd08aeb37f8e728b8dad`, the SHA-1 of
`"blob 12\0hello world\n"`. -/
theorem header_encoding_and_hash_vector :
    (∀ (k : ObjectKind) (n : Nat),
      encodeHeaderBytes k n = k.toStrBytes ++ [32] ++ natDigits n ++ [0]
      ∧ allDigits (natDigits n) = true ∧ digitsVal (natDigits n) = n)
    ∧ hexEncode (gitHashObjectId (strBytes "hello world\n"))
        = "3b18e512dba79e4c8300dd08aeb37f8e728b8dad".toList
    ∧ gitHashObjectId (strBytes "hello world\n")
        = sha1 (strBytes "blob 12\x00hello world\n") := by
  refine ⟨fun k n => ⟨rfl, allDigits_natDigits n, natDigits_val n⟩, by decide, by decide⟩

set_option maxRecDepth 200000 in
/-- C3 (code evaluated at the failing input).  A stored tree object whose
header declares size 0 but whose decompressed stream carries a 30-byte entry:
`git_ls_tree`'s entry loop parses and returns the entry, reading 30 bytes
past the declared size instead of stopping at 0 bytes (the bound the spec
mandates and the source acknowledges as missing in its
`// TODO: read only expected size`). -/
theorem ls_tree_reads_past_declared_size :
    gitLsTreeContent (encodeObject .tree 0 (strBytes "40000 sub" ++ [0] ++ List.replicate 20 7))
      = .ok [⟨strBytes "40000", strBytes "sub", List.replicate 20 7, .tree⟩]
    ∧ (strBytes "40000 sub" ++ [0] ++ List.replicate 20 7).length = 30 := by
  constructor
  · decide
  · decide

/-! ## Comparator lemmas -/

theorem entryCmpRaw_cons (a b : Nat) (as_ bs : List Nat) (aDir bDir : Bool) :
    entryCmpRaw (a :: as_) aDir (b :: bs) bDir =
      if a = b then entryCmpRaw as_ aDir bs bDir else compare a b := by
  by_cases hab : a = b
  · subst hab
    simp only [entryCmpRaw, List.length_cons, Nat.succ_min_succ, List.take_succ_cons,
      lexCmp, Nat.compare_eq_eq.mpr rfl, List.get?_cons_succ, if_pos rfl]
    simp
  · have hc : compare a b ≠ .eq := by simp [Nat.compare_eq_eq, hab]
    simp only [entryCmpRaw, List.length_cons, Nat.succ_min_succ, List.take_succ_cons, lexCmp,
      if_neg hab]

/-- C2.  Tree-entry sort order: the comparator coincides, on every pair of
names and directory flags, with the spec's byte-by-byte walk in which an
exhausted name contributes the implied byte `'/'` (0x2F) if that entry is a
directory and otherwise sorts first; in particular the file "foo.txt" orders
before the sibling directory "foo". -/
theorem tree_entry_sort_order :
    (∀ (af : List Nat) (aDir : Bool) (bf : List Nat) (bDir : Bool),
      entryCmpRaw af aDir bf bDir = specWalk af aDir bf bDir)
    ∧ entryCmp (.file (strBytes "foo.txt") [] false 0) (.dir (strBytes "foo") []) = .lt := by
  constructor
  · intro af
    induction af with
    | nil =>
      intro aDir bf bDir
      cases bf with
      | nil => cases aDir <;> cases bDir <;> rfl
      | cons b bs => cases aDir <;> rfl
    | cons a as_ ih =>
      intro aDir bf bDir
      cases bf with
      | nil => cases bDir <;> rfl
      | cons b bs =>
        rw [entryCmpRaw_cons]
        simp only [specWalk]
        by_cases hab : a = b
        · rw [if_pos hab, if_pos hab, ih]
        · rw [if_neg hab, if_neg hab]
  · decide

/-- C7.  Mode assignment: a directory gets the tree mode `40000`; otherwise
symlink detection takes precedence with `120000`; otherwise any executable
permission bit gives `100755` and none gives `100644`. -/
theorem mode_assignment (m : Metadata) :
    (m.isDir = true → get_mode_for_entry m = "40000")
    ∧ (m.isDir = false → m.isSymlink = true → get_mode_for_entry m = "120000")
    ∧ (m.isDir = false → m.isSymlink = false → m.mode &&& 0o111 ≠ 0 →
        get_mode_for_entry m = "100755")
    ∧ (m.isDir = false → m.isSymlink = false → m.mode &&& 0o111 = 0 →
        get_mode_for_entry m = "100644") := by
  refine ⟨?_, ?_, ?_, ?_⟩
  · intro h1
    simp [get_mode_for_entry, h1]
  · intro h1 h2
    simp [get_mode_for_entry, h1, h2]
  · intro h1 h2 h3
    simp [get_mode_for_entry, h1, h2, h3]
  · intro h1 h2 h3
    simp [get_mode_for_entry, h1, h2, h3]

/-- Witness for C7: the four metadata shapes, including an executable file
with permission bits 0o755 and a plain file with 0o644. -/
theorem mode_assignment_witness :
    get_mode_for_entry ⟨true, false, 0o40755⟩ = "40000"
    ∧ get_mode_for_entry ⟨false, true, 0o777⟩ = "120000"
    ∧ get_mode_for_entry ⟨false, false, 0o755⟩ = "100755"
    ∧ get_mode_for_entry ⟨false, false, 0o644⟩ = "100644" :=
  ⟨(mode_assignment _).1 rfl, (mode_assignment _).2.1 rfl rfl,
   (mode_assignment _).2.2.1 rfl rfl (by decide), (mode_assignment _).2.2.2 rfl rfl (by decide)⟩

/-! ## Timezone/commit lemmas -/

theorem getTimezone_eq_spec (off : Int) (hoff : 0 ≤ off ∨ off ≤ -3600) :
    getTimezone off = tzSpecStr off := by
  rcases hoff with h | h
  · obtain ⟨n, rfl⟩ := Int.eq_ofNat_of_zero_le h
    have h1 : Int.tdiv ↑n 3600 = ((n / 3600 : Nat) : Int) := (Int.ofNat_tdiv n 3600).symm
    have h2 : ¬ (((n / 3600 : Nat) : Int) < 0) := not_lt.mpr (Int.ofNat_nonneg _)
    have h3 : ¬ ((n : Int) < 0) := not_lt.mpr (Int.ofNat_nonneg _)
    rw [getTimezone, tzSpecStr, fmtPlus03, h1]
    rw [if_neg h2, if_neg h3, Int.natAbs_ofNat, Int.natAbs_ofNat]
  · have hneg : off < 0 := by omega
    obtain ⟨m, rfl⟩ := Int.eq_negSucc_of_lt_zero hneg
    have hcast : Int.negSucc m = -((m + 1 : Nat) : Int) := by
      rw [Int.negSucc_eq]
      push_cast
      ring
    have h1 : Int.tdiv (Int.negSucc m) 3600 = -(((m + 1) / 3600 : Nat) : Int) := by
      rw [hcast, Int.neg_tdiv]
      congr 1
    have hm : 3600 ≤ m + 1 := by
      have h' := h
      rw [Int.negSucc_eq] at h'
      omega
    have hq : 1 ≤ (m + 1) / 3600 := (Nat.one_le_div_iff (by norm_num)).mpr hm
    have h2 : (-(((m + 1) / 3600 : Nat) : Int)) < 0 := by
      have hpos : (0 : Int) < (((m + 1) / 3600 : Nat) : Int) := by exact_mod_cast hq
      omega
    have h3 : (-(((m + 1) / 3600 : Nat) : Int)).natAbs = (m + 1) / 3600 := by
      rw [Int.natAbs_neg, Int.natAbs_ofNat]
    rw [getTimezone, tzSpecStr, fmtPlus03, h1, if_pos h2, if_pos hneg, h3, Int.natAbs_negSucc]

/-- C8 (counterexample).  At timezone offset -1800 seconds (a half hour west
of UTC) the commit body the code renders differs from the spec's `±HHMM`
rendering: the truncated hour count is 0, so the sign printed is `+` and the
timezone comes out `+0030` instead of `-0030`. -/
theorem commit_tz_counterexample :
    gitWriteCommitBody "t" none "msg" "n" "e" 0 (-1800)
      ≠ commitBodySpec "t" none "msg" "n" "e" 0 (-1800) := by
  decide

/-- C8 (amended).  Commit body rendering: one `tree` line, a `parent` line
only when a parent id is present, `author` and `committer` lines sharing the
identity and decimal timestamp, a blank line, then the message verbatim and
newline-terminated, with the timezone as `±HHMM` — provided the offset is
non-negative or at most -3600 (for offsets strictly between -3600 and 0 the
code's truncated hour count erases the sign). -/
theorem commit_body_rendering (treeHash : String) (parentHash : Option String)
    (message name email : String) (time : Int) (off : Int)
    (hoff : 0 ≤ off ∨ off ≤ -3600) :
    gitWriteCommitBody treeHash parentHash message name email time off
      = commitBodySpec treeHash parentHash message name email time off := by
  simp only [gitWriteCommitBody, commitBodySpec, getTimezone_eq_spec off hoff]

/-- Witness for C8 at the spec's own example: offset +19800 (+0530). -/
theorem commit_body_rendering_witness :
    gitWriteCommitBody "4b825dc642cb6eb9a060e54bf8d69288fbee4904" (some "p") "Initial commit"
        "Alice" "alice@example.com" 1697750400 19800
      = commitBodySpec "4b825dc642cb6eb9a060e54bf8d69288fbee4904" (some "p") "Initial commit"
        "Alice" "alice@example.com" 1697750400 19800 :=
  commit_body_rendering _ _ _ _ _ _ 19800 (Or.inl (by decide))

/-! ## Write-trace lemmas -/

theorem foldl_applyOp_writes (cs : List (List Nat)) :
    ∀ (s : ObsState), (cs.map FsOp.writeTmp).foldl applyOp s = ⟨s.tmp ++ cs.flatten, s.final⟩ := by
  induction cs with
  | nil => intro s; simp
  | cons c t ih =>
    intro s
    simp only [List.map_cons, List.foldl_cons, applyOp, ih, List.flatten_cons, List.append_assoc]

/-- C9.  Write atomicity: along the operation trace of `write_as_object`
(temporary-file writes in any chunking, directory creation, then one atomic
rename), the state a concurrent reader observes after any prefix of the trace
has either nothing at the final path or the complete object content — never a
partial file. -/
theorem write_atomicity (chunks : List (List Nat)) (p : List FsOp)
    (hp : p <+: writeAsObjectTrace chunks) :
    (runOps p).final = none ∨ (runOps p).final = some chunks.flatten := by
  have htake := List.prefix_iff_eq_take.mp hp
  have hlenle : p.length ≤ (writeAsObjectTrace chunks).length := hp.length_le
  have htracelen : (writeAsObjectTrace chunks).length = chunks.length + 2 := by
    simp [writeAsObjectTrace]
  by_cases h1 : p.length ≤ chunks.length
  · left
    rw [htake, writeAsObjectTrace,
      List.take_append_of_le_length (by simpa using h1), ← List.map_take]
    rw [runOps, foldl_applyOp_writes]
  · by_cases h2 : p.length = chunks.length + 1
    · left
      rw [htake, writeAsObjectTrace,
        show p.length = (chunks.map FsOp.writeTmp).length + 1 by simpa using h2,
        List.take_append, runOps, List.foldl_append, foldl_applyOp_writes]
      rfl
    · right
      have h3 : p.length = chunks.length + 2 := by omega
      rw [htake, List.take_of_length_le (by omega), writeAsObjectTrace, runOps,
        List.foldl_append, foldl_applyOp_writes]
      rfl

/-- Witness for C9: a two-chunk write observed at the end of its trace. -/
theorem write_atomicity_witness :
    (runOps (writeAsObjectTrace [[1, 2], [3]])).final = none
    ∨ (runOps (writeAsObjectTrace [[1, 2], [3]])).final = some ([[1, 2], [3]] : List (List Nat)).flatten :=
  write_atomicity [[1, 2], [3]] (writeAsObjectTrace [[1, 2], [3]]) (List.prefix_refl _)

/-- C10.  Hash-writer consistency: if the bytes fed to the SHA-1 hasher so
far are exactly the bytes the inner compressing writer has accepted, then
after any sequence of `write` calls — with arbitrary short writes and
early-error returns — they still are; the digest is therefore always taken
over precisely the byte sequence that was compressed and stored. -/
theorem hash_writer_consistency {σ : Type} (w : InnerWriter σ) (bufs : List (List Nat))
    (st st2 : HWState σ) (hinv : st.hasherInput = w.received st.inner)
    (hrun : hwWriteAll w st bufs = some st2) :
    st2.hasherInput = w.received st2.inner := by
  induction bufs generalizing st with
  | nil =>
    simp only [hwWriteAll, Option.some.injEq] at hrun
    rw [← hrun]
    exact hinv
  | cons buf rest ih =>
    simp only [hwWriteAll] at hrun
    cases hw : hwWrite w st buf with
    | none => rw [hw] at hrun; exact absurd hrun (by simp)
    | some st1 =>
      rw [hw] at hrun
      apply ih st1 _ hrun
      simp only [hwWrite] at hw
      cases hstep : w.step st.inner buf with
      | none => rw [hstep] at hw; exact absurd hw (by simp)
      | some ns =>
        obtain ⟨n, s2⟩ := ns
        rw [hstep] at hw
        simp only [Option.some.injEq] at hw
        rw [← hw]
        have hr := w.step_received st.inner buf n s2 hstep
        simp [hr, hinv]

/-- Witness for C10: the recording sink writer over two buffers. -/
theorem hash_writer_consistency_witness :
    (⟨[1, 2, 3], [1, 2, 3]⟩ : HWState (List Nat)).hasherInput
      = sinkWriter.received (⟨[1, 2, 3], [1, 2, 3]⟩ : HWState (List Nat)).inner :=
  hash_writer_consistency sinkWriter [[1, 2], [3]] ⟨[], []⟩ ⟨[1, 2, 3], [1, 2, 3]⟩ rfl rfl

/-! ## Tree-builder lemmas -/

theorem one_le_sizeOf_list {α : Type} [SizeOf α] (l : List α) : 1 ≤ sizeOf l := by
  cases l with
  | nil => simp
  | cons a t => simp only [List.cons.sizeOf_spec]; omega

theorem hasFileList_eq_false (cs : List FsEntry) :
    hasFileList cs = false ↔ ∀ e ∈ cs, hasFile e = false := by
  induction cs with
  | nil => simp [hasFileList]
  | cons e t ih =>
    simp only [hasFileList, Bool.or_eq_false_iff, List.mem_cons, ih]
    constructor
    · rintro ⟨h1, h2⟩ x (rfl | hx)
      · exact h1
      · exact h2 x hx
    · intro hall
      exact ⟨hall e (Or.inl rfl), fun x hx => hall x (Or.inr hx)⟩

/-- C4.  Empty-directory elision: a directory with no files anywhere beneath
it builds to none rather than an empty Tree object, and in a parent's entry
loop a child subdirectory whose recursive build returns none is skipped
entirely and contributes nothing to the parent's tree bytes. -/
theorem empty_directory_elision :
    (∀ cs : List FsEntry, hasFileList cs = false → buildTree cs = none)
    ∧ (∀ (name : List Nat) (cs rest : List FsEntry), buildTree cs = none →
        treeOut (.dir name cs :: rest) = treeOut rest) := by
  constructor
  · have key : ∀ (N : Nat) (cs : List FsEntry), sizeOf cs ≤ N → hasFileList cs = false →
        buildTree cs = none := by
      intro N
      induction N with
      | zero =>
        intro cs hs _
        exact absurd hs (by have := one_le_sizeOf_list cs; omega)
      | succ N ih =>
        intro cs hsize hnofile
        have hmem : ∀ e ∈ cs, hasFile e = false := (hasFileList_eq_false cs).mp hnofile
        have hsub : ∀ e ∈ sortEntries cs, hasFile e = false ∧ sizeOf e ≤ N := by
          intro e he
          have hecs : e ∈ cs := by
            simpa [sortEntries, List.mem_mergeSort] using he
          refine ⟨hmem e hecs, ?_⟩
          have := List.sizeOf_lt_of_mem hecs
          omega
        have hout : treeOut (sortEntries cs) = [] := by
          generalize sortEntries cs = l at hsub
          induction l with
          | nil => simp [treeOut]
          | cons e t iht =>
            have he := hsub e (List.mem_cons_self e t)
            have ht : ∀ x ∈ t, hasFile x = false ∧ sizeOf x ≤ N :=
              fun x hx => hsub x (List.mem_cons_of_mem e hx)
            cases e with
            | file n c sym perm => exact absurd he.1 (by simp [hasFile])
            | dir n2 cs2 =>
              have hcs2 : hasFileList cs2 = false := by
                have := he.1
                simpa [hasFile] using this
              have hsz : sizeOf cs2 ≤ N := by
                have hlt : sizeOf cs2 < sizeOf (FsEntry.dir n2 cs2) := by
                  simp only [FsEntry.dir.sizeOf_spec]
                  have := one_le_sizeOf_list n2
                  omega
                have := he.2
                omega
              have hbt : buildTree cs2 = none := ih cs2 hsz hcs2
              simp only [treeOut, hbt, List.nil_append]
              exact iht ht
        rw [buildTree, hout]
        simp
    intro cs h
    exact key (sizeOf cs) cs le_rfl h
  · intro name cs rest hnone
    simp only [treeOut, hnone, List.nil_append]

/-- Witness for C4: a directory containing only an empty subdirectory builds
to none, and a parent's loop drops such a child entirely. -/
theorem empty_directory_elision_witness :
    buildTree [FsEntry.dir [100] []] = none
    ∧ treeOut [FsEntry.dir [100] []] = treeOut [] :=
  ⟨empty_directory_elision.1 [FsEntry.dir [100] []] (by simp [hasFileList, hasFile]),
   empty_directory_elision.2 [100] [] []
     (empty_directory_elision.1 [] (by simp [hasFileList]))⟩
